import Mathlib

/-!
Verification of the ddtrace repository's interface-scanning / code-generation
pipeline against its natural-language specification.

The Go source is shallowly embedded: each Go function relevant to a claim is
translated into an executable Lean definition (same control flow, same data),
and the claims are settled as theorems about those definitions.
-/

namespace DDTrace

/-! ## String helpers (model of Go `strings` / `sort.Strings` / `filepath.Base`) -/

/-- Model of `strings.HasPrefix` on character lists: `charsStartWith l pre`
is true when `pre` is an initial segment of `l`. -/
def charsStartWith : List Char → List Char → Bool
  | _, [] => true
  | [], _ :: _ => false
  | a :: as, b :: bs => a == b && charsStartWith as bs

/-- Model of `strings.HasSuffix s suf` (byte-for-byte suffix test). -/
def strEndsWith (s suf : String) : Bool :=
  charsStartWith s.toList.reverse suf.toList.reverse

/-- `charsContain l sub` is the model of `strings.Contains` on character
lists: some contiguous run of `l` equals `sub`. -/
def charsContain : List Char → List Char → Bool
  | [], sub => charsStartWith [] sub
  | a :: as, sub => charsStartWith (a :: as) sub || charsContain as sub

/-- Model of `strings.Contains s sub`. -/
def strContains (s sub : String) : Bool :=
  charsContain s.toList sub.toList

/-- Lexicographic comparison of character lists by code point, the order
used by Go's `sort.Strings`. -/
def lexLe : List Char → List Char → Bool
  | [], _ => true
  | _ :: _, [] => false
  | a :: as, b :: bs =>
    if a.toNat < b.toNat then true
    else if b.toNat < a.toNat then false
    else lexLe as bs

/-- Lexicographic string order (model of the order used by `sort.Strings`). -/
def strLe (a b : String) : Bool :=
  lexLe a.toList b.toList

/-- `strLe` as a relation, for use with `List.insertionSort`. -/
def strLeRel (a b : String) : Prop :=
  strLe a b = true

instance : DecidableRel strLeRel := fun a b =>
  inferInstanceAs (Decidable (strLe a b = true))

theorem lexLe_total : ∀ l1 l2 : List Char, lexLe l1 l2 = true ∨ lexLe l2 l1 = true
  | [], _ => Or.inl rfl
  | _ :: _, [] => Or.inr rfl
  | a :: as, b :: bs => by
    simp only [lexLe]
    rcases Nat.lt_trichotomy a.toNat b.toNat with h | h | h
    · left
      simp [h]
    · have h1 : ¬ a.toNat < b.toNat := by omega
      have h2 : ¬ b.toNat < a.toNat := by omega
      simp only [if_neg h1, if_neg h2]
      exact lexLe_total as bs
    · right
      simp [h]

theorem lexLe_trans :
    ∀ l1 l2 l3 : List Char,
      lexLe l1 l2 = true → lexLe l2 l3 = true → lexLe l1 l3 = true
  | [], _, _ => fun _ _ => rfl
  | _ :: _, [], _ => fun h _ => by simp [lexLe] at h
  | _ :: _, _ :: _, [] => fun _ h => by simp [lexLe] at h
  | a :: as, b :: bs, c :: cs => fun h1 h2 => by
    simp only [lexLe] at h1 h2 ⊢
    split_ifs at h1 h2 ⊢ <;> first
      | rfl
      | omega
      | (exact lexLe_trans as bs cs h1 h2)

instance : IsTotal String strLeRel :=
  ⟨fun a b => lexLe_total a.toList b.toList⟩

instance : IsTrans String strLeRel :=
  ⟨fun a b c => lexLe_trans a.toList b.toList c.toList⟩

/-- Model of Go's `sort.Strings` (ascending lexicographic sort). -/
def sortStrings (l : List String) : List String :=
  List.insertionSort strLeRel l

/-- Model of `filepath.Base`: the part of the path after the last slash. -/
def baseName (s : String) : String :=
  String.mk ((s.toList.reverse.takeWhile (fun c => c != '/')).reverse)

/-! ## Declaration Scanner (embedding of `src/pkg/scanner.go`) -/

/-- `ast.CommentGroup`: the list of raw comment texts (`c.Text`). -/
structure CommentGroupE where
  texts : List String
deriving DecidableEq, Repr

/-- `pkg.InterfaceInfo` from `src/pkg/scanner.go`. -/
structure InterfaceInfo where
  name : String
deriving DecidableEq, Repr

/-- `pkg.FileInterfaces` from `src/pkg/scanner.go`. -/
structure FileInterfaces where
  fileName : String
  interfaces : List InterfaceInfo
deriving DecidableEq, Repr

/-- The exact ignore directive line from `src/pkg/scanner.go`. -/
def ignoreDirective : String := "//ddtrace:ignore"

/-- `hasIgnoreDirective` from `src/pkg/scanner.go`: some comment in the
group, once whitespace-trimmed, equals the ignore directive. -/
def hasIgnoreDirective : Option CommentGroupE → Bool
  | none => false
  | some cg => cg.texts.any (fun t => t.trim == ignoreDirective)

/-- The kind of `ast.TypeSpec.Type` node (interface type or not). -/
inductive TypeKind
  | interfaceType
  | structType
  | otherType
deriving DecidableEq, Repr

/-- An `ast.TypeSpec`: declared name, kind of its type, and doc comment. -/
structure TypeSpecE where
  name : String
  kind : TypeKind
  doc : Option CommentGroupE
deriving DecidableEq, Repr

/-- An `ast.Spec` inside a `GenDecl` (the scanner skips non-TypeSpec specs). -/
inductive SpecE
  | typeSpec (ts : TypeSpecE)
  | importSpec
deriving DecidableEq, Repr

/-- The token of an `ast.GenDecl` (`token.TYPE` vs the others). -/
inductive GenTok
  | typeTok
  | importTok
  | constTok
  | varTok
deriving DecidableEq, Repr

/-- A top-level `ast.Decl`: a `GenDecl` with token, doc and specs, or a
function declaration (skipped by the scanner). -/
inductive DeclE
  | genDecl (tok : GenTok) (doc : Option CommentGroupE) (specs : List SpecE)
  | funcDecl
deriving DecidableEq, Repr

/-- An `ast.File`: its top-level declarations. -/
structure FileE where
  decls : List DeclE
deriving DecidableEq, Repr

/-- `pkg.Package`: name plus the `Files` map (`map[string]*ast.File`),
modelled as an association list; a `none` value models a nil `*ast.File`. -/
structure PackageE where
  name : String
  files : List (String × Option FileE)
deriving DecidableEq, Repr

/-- Inner loop of `scanFile` over the specs of one `type` declaration group:
keep a spec when it is a TypeSpec whose type is an interface and neither the
group doc nor the spec doc carries the ignore directive. -/
def scanSpecs (gdoc : Option CommentGroupE) : List SpecE → List InterfaceInfo
  | [] => []
  | SpecE.importSpec :: rest => scanSpecs gdoc rest
  | SpecE.typeSpec ts :: rest =>
    if ts.kind = TypeKind.interfaceType then
      if hasIgnoreDirective gdoc || hasIgnoreDirective ts.doc then
        scanSpecs gdoc rest
      else
        ⟨ts.name⟩ :: scanSpecs gdoc rest
    else
      scanSpecs gdoc rest

/-- Outer loop of `scanFile` over the declarations: only `GenDecl`s whose
token is `token.TYPE` are examined. -/
def scanDecls : List DeclE → List InterfaceInfo
  | [] => []
  | DeclE.funcDecl :: rest => scanDecls rest
  | DeclE.genDecl tok doc specs :: rest =>
    if tok = GenTok.typeTok then
      scanSpecs doc specs ++ scanDecls rest
    else
      scanDecls rest

/-- `scanFile` from `src/pkg/scanner.go`. -/
def scanFile (f : FileE) : List InterfaceInfo :=
  scanDecls f.decls

/-- `p.Files[fullPath]` followed by the nil check: a missing key and a nil
value both yield `none`. -/
def lookupFileE (files : List (String × Option FileE)) (n : String) : Option FileE :=
  match files.find? (fun kv => kv.1 == n) with
  | none => none
  | some kv => kv.2

/-- The per-file loop body of `ScanPackage`, applied to an explicit (already
sorted) list of full file paths. -/
def scanSorted (p : PackageE) : List String → List FileInterfaces
  | [] => []
  | fullPath :: rest =>
    if strEndsWith (baseName fullPath) "_test.go"
        || strEndsWith (baseName fullPath) "_trace.go" then
      scanSorted p rest
    else
      match lookupFileE p.files fullPath with
      | none => scanSorted p rest
      | some f =>
        if scanFile f = [] then scanSorted p rest
        else ⟨baseName fullPath, scanFile f⟩ :: scanSorted p rest

/-- `ScanPackage` from `src/pkg/scanner.go`: collect the file names, sort
them, and scan each file in that order.  The function never reports an
error, so the embedding returns the list directly. -/
def scanPackage (p : PackageE) : List FileInterfaces :=
  scanSorted p (sortStrings (p.files.map Prod.fst))

/-- The survival test a file path must pass in `ScanPackage`: not a test or
trace file, present and non-nil in the map, and contributing at least one
surviving interface declaration. -/
def scanKeep (p : PackageE) (fullPath : String) : Bool :=
  if strEndsWith (baseName fullPath) "_test.go"
      || strEndsWith (baseName fullPath) "_trace.go" then false
  else
    match lookupFileE p.files fullPath with
    | none => false
    | some f => !decide (scanFile f = [])

theorem scanSorted_fileNames (p : PackageE) :
    ∀ names : List String,
      (scanSorted p names).map (fun fi => fi.fileName)
        = (names.filter (scanKeep p)).map baseName := by
  intro names
  induction names with
  | nil => rfl
  | cons fullPath rest ih =>
    by_cases h1 : (strEndsWith (baseName fullPath) "_test.go"
        || strEndsWith (baseName fullPath) "_trace.go") = true
    · simp [scanSorted, scanKeep, h1, ih]
    · cases hf : lookupFileE p.files fullPath with
      | none => simp [scanSorted, scanKeep, h1, hf, ih]
      | some f =>
        by_cases h2 : scanFile f = []
        · simp [scanSorted, scanKeep, h1, hf, h2, ih]
        · simp [scanSorted, scanKeep, h1, hf, h2, ih]

theorem scanSorted_mem (p : PackageE) :
    ∀ (names : List String) (fi : FileInterfaces), fi ∈ scanSorted p names →
      ∃ fullPath f, fullPath ∈ names
        ∧ strEndsWith (baseName fullPath) "_test.go" = false
        ∧ strEndsWith (baseName fullPath) "_trace.go" = false
        ∧ lookupFileE p.files fullPath = some f
        ∧ fi.fileName = baseName fullPath
        ∧ fi.interfaces = scanFile f
        ∧ scanFile f ≠ [] := by
  intro names
  induction names with
  | nil => intro fi h; simp [scanSorted] at h
  | cons fullPath rest ih =>
    intro fi h
    by_cases h1 : (strEndsWith (baseName fullPath) "_test.go"
        || strEndsWith (baseName fullPath) "_trace.go") = true
    · rw [scanSorted, if_pos h1] at h
      obtain ⟨fp, f, hmem, hrest⟩ := ih fi h
      exact ⟨fp, f, List.mem_cons_of_mem _ hmem, hrest⟩
    · rw [scanSorted, if_neg h1] at h
      cases hf : lookupFileE p.files fullPath with
      | none =>
        simp only [hf] at h
        obtain ⟨fp, f, hmem, hrest⟩ := ih fi h
        exact ⟨fp, f, List.mem_cons_of_mem _ hmem, hrest⟩
      | some f =>
        simp only [hf] at h
        by_cases h2 : scanFile f = []
        · rw [if_pos h2] at h
          obtain ⟨fp, f', hmem, hrest⟩ := ih fi h
          exact ⟨fp, f', List.mem_cons_of_mem _ hmem, hrest⟩
        · rw [if_neg h2] at h
          rcases List.mem_cons.mp h with hfi | hfi
          · subst hfi
            have h1' : (strEndsWith (baseName fullPath) "_test.go"
                || strEndsWith (baseName fullPath) "_trace.go") = false :=
              Bool.eq_false_iff.mpr h1
            rcases Bool.or_eq_false_iff.mp h1' with ⟨ha, hb⟩
            exact ⟨fullPath, f, List.mem_cons_self _ _, ha, hb, hf, rfl, rfl, h2⟩
          · obtain ⟨fp, f', hmem, hrest⟩ := ih fi hfi
            exact ⟨fp, f', List.mem_cons_of_mem _ hmem, hrest⟩

theorem mem_scanSpecs (gdoc : Option CommentGroupE) :
    ∀ (specs : List SpecE) (i : InterfaceInfo),
      i ∈ scanSpecs gdoc specs ↔
        ∃ ts, SpecE.typeSpec ts ∈ specs
          ∧ ts.kind = TypeKind.interfaceType
          ∧ hasIgnoreDirective gdoc = false
          ∧ hasIgnoreDirective ts.doc = false
          ∧ i = ⟨ts.name⟩ := by
  intro specs
  induction specs with
  | nil => intro i; simp [scanSpecs]
  | cons s rest ih =>
    intro i
    cases s with
    | importSpec =>
      rw [scanSpecs, ih]
      constructor
      · rintro ⟨ts, hmem, hrest⟩
        exact ⟨ts, List.mem_cons_of_mem _ hmem, hrest⟩
      · rintro ⟨ts, hmem, hrest⟩
        rcases List.mem_cons.mp hmem with hts | hts
        · exact absurd hts (by simp)
        · exact ⟨ts, hts, hrest⟩
    | typeSpec ts =>
      by_cases hk : ts.kind = TypeKind.interfaceType
      · by_cases hig : (hasIgnoreDirective gdoc || hasIgnoreDirective ts.doc) = true
        · rw [scanSpecs, if_pos hk, if_pos hig, ih]
          constructor
          · rintro ⟨ts', hmem, hrest⟩
            exact ⟨ts', List.mem_cons_of_mem _ hmem, hrest⟩
          · rintro ⟨ts', hmem, hk', hg', hd', hi'⟩
            rcases List.mem_cons.mp hmem with hts | hts
            · cases hts
              rcases Bool.or_eq_true_iff.mp hig with hx | hx
              · rw [hg'] at hx; cases hx
              · rw [hd'] at hx; cases hx
            · exact ⟨ts', hts, hk', hg', hd', hi'⟩
        · have hig' := Bool.or_eq_false_iff.mp (Bool.eq_false_iff.mpr hig)
          rw [scanSpecs, if_pos hk, if_neg hig]
          constructor
          · intro h
            rcases List.mem_cons.mp h with hi | hi
            · exact ⟨ts, List.mem_cons_self _ _, hk, hig'.1, hig'.2, hi⟩
            · obtain ⟨ts', hmem, hrest⟩ := (ih i).mp hi
              exact ⟨ts', List.mem_cons_of_mem _ hmem, hrest⟩
          · rintro ⟨ts', hmem, hk', hg', hd', hi'⟩
            rcases List.mem_cons.mp hmem with hts | hts
            · cases hts
              simp [hi']
            · exact List.mem_cons_of_mem _ ((ih i).mpr ⟨ts', hts, hk', hg', hd', hi'⟩)
      · rw [scanSpecs, if_neg hk, ih]
        constructor
        · rintro ⟨ts', hmem, hrest⟩
          exact ⟨ts', List.mem_cons_of_mem _ hmem, hrest⟩
        · rintro ⟨ts', hmem, hk', hg', hd', hi'⟩
          rcases List.mem_cons.mp hmem with hts | hts
          · cases hts; exact absurd hk' hk
          · exact ⟨ts', hts, hk', hg', hd', hi'⟩

theorem mem_scanDecls :
    ∀ (decls : List DeclE) (i : InterfaceInfo),
      i ∈ scanDecls decls ↔
        ∃ doc specs, DeclE.genDecl GenTok.typeTok doc specs ∈ decls
          ∧ i ∈ scanSpecs doc specs := by
  intro decls
  induction decls with
  | nil => intro i; simp [scanDecls]
  | cons d rest ih =>
    intro i
    cases d with
    | funcDecl =>
      rw [scanDecls, ih]
      constructor
      · rintro ⟨doc, specs, hmem, hi⟩
        exact ⟨doc, specs, List.mem_cons_of_mem _ hmem, hi⟩
      · rintro ⟨doc, specs, hmem, hi⟩
        rcases List.mem_cons.mp hmem with hd | hd
        · cases hd
        · exact ⟨doc, specs, hd, hi⟩
    | genDecl tok doc specs =>
      by_cases ht : tok = GenTok.typeTok
      · subst ht
        rw [scanDecls, if_pos rfl]
        rw [List.mem_append, ih]
        constructor
        · rintro (hi | ⟨doc', specs', hmem, hi⟩)
          · exact ⟨doc, specs, List.mem_cons_self _ _, hi⟩
          · exact ⟨doc', specs', List.mem_cons_of_mem _ hmem, hi⟩
        · rintro ⟨doc', specs', hmem, hi⟩
          rcases List.mem_cons.mp hmem with hd | hd
          · cases hd; exact Or.inl hi
          · exact Or.inr ⟨doc', specs', hd, hi⟩
      · rw [scanDecls, if_neg ht, ih]
        constructor
        · rintro ⟨doc', specs', hmem, hi⟩
          exact ⟨doc', specs', List.mem_cons_of_mem _ hmem, hi⟩
        · rintro ⟨doc', specs', hmem, hi⟩
          rcases List.mem_cons.mp hmem with hd | hd
          · cases hd; exact absurd rfl ht
          · exact ⟨doc', specs', hd, hi⟩

/-- C5: `ScanPackage` processes files in lexicographic filename order
(the scanned list is a sorted permutation of the package's file names and
the result is its image under the per-file filter); files ending in
`_test.go` or `_trace.go` are skipped entirely; only interface type
declarations survive, and only when neither their own doc comment nor their
declaration group's doc comment contains the exact ignore directive line;
files with zero surviving declarations are omitted, and nothing survives
yields the empty (non-error) result. -/
theorem scanPackage_spec (p : PackageE) :
    ((scanPackage p).map (fun fi => fi.fileName)
        = ((sortStrings (p.files.map Prod.fst)).filter (scanKeep p)).map baseName)
    ∧ List.Sorted strLeRel (sortStrings (p.files.map Prod.fst))
    ∧ (sortStrings (p.files.map Prod.fst)).Perm (p.files.map Prod.fst)
    ∧ (∀ fullPath, fullPath ∈ p.files.map Prod.fst → scanKeep p fullPath = true →
        baseName fullPath ∈ (scanPackage p).map (fun fi => fi.fileName))
    ∧ (∀ fi, fi ∈ scanPackage p →
        strEndsWith fi.fileName "_test.go" = false
        ∧ strEndsWith fi.fileName "_trace.go" = false
        ∧ fi.interfaces ≠ []
        ∧ ∃ fullPath f, fullPath ∈ p.files.map Prod.fst
            ∧ lookupFileE p.files fullPath = some f
            ∧ fi.fileName = baseName fullPath
            ∧ fi.interfaces = scanFile f)
    ∧ (∀ (f : FileE) (i : InterfaceInfo),
        i ∈ scanFile f ↔ ∃ doc specs ts,
          DeclE.genDecl GenTok.typeTok doc specs ∈ f.decls
          ∧ SpecE.typeSpec ts ∈ specs
          ∧ ts.kind = TypeKind.interfaceType
          ∧ hasIgnoreDirective doc = false
          ∧ hasIgnoreDirective ts.doc = false
          ∧ i = ⟨ts.name⟩) := by
  refine ⟨scanSorted_fileNames p _, List.sorted_insertionSort strLeRel _,
    List.perm_insertionSort strLeRel _, ?_, ?_, ?_⟩
  · intro fullPath hmem hkeep
    rw [scanPackage, scanSorted_fileNames p _]
    exact List.mem_map_of_mem baseName
      (List.mem_filter.mpr ⟨(List.mem_insertionSort strLeRel).mpr hmem, hkeep⟩)
  · intro fi hfi
    obtain ⟨fullPath, f, hmem, ha, hb, hf, hname, hifaces, hne⟩ :=
      scanSorted_mem p _ fi hfi
    refine ⟨hname ▸ ha, hname ▸ hb, ?_, fullPath, f,
      (List.mem_insertionSort strLeRel).mp hmem, hf, hname, hifaces⟩
    rw [hifaces]
    exact hne
  · intro f i
    rw [scanFile, mem_scanDecls]
    constructor
    · rintro ⟨doc, specs, hd, hi⟩
      obtain ⟨ts, hts, hk, hg, hdd, hii⟩ := (mem_scanSpecs doc specs i).mp hi
      exact ⟨doc, specs, ts, hd, hts, hk, hg, hdd, hii⟩
    · rintro ⟨doc, specs, ts, hd, hts, hk, hg, hdd, hii⟩
      exact ⟨doc, specs, hd, (mem_scanSpecs doc specs i).mpr ⟨ts, hts, hk, hg, hdd, hii⟩⟩

/-- Concrete package used to witness `scanPackage_spec`: one interface `I`
in `svc.go`, one struct in `types.go`, one test file, one generated file. -/
def scanWitnessPkg : PackageE :=
  ⟨"svc",
    [("svc.go", some ⟨[DeclE.genDecl GenTok.typeTok none
        [SpecE.typeSpec ⟨"I", TypeKind.interfaceType, none⟩]]⟩),
     ("types.go", some ⟨[DeclE.genDecl GenTok.typeTok none
        [SpecE.typeSpec ⟨"User", TypeKind.structType, none⟩]]⟩),
     ("svc_test.go", some ⟨[DeclE.genDecl GenTok.typeTok none
        [SpecE.typeSpec ⟨"Mock", TypeKind.interfaceType, none⟩]]⟩),
     ("svc_trace.go", some ⟨[DeclE.genDecl GenTok.typeTok none
        [SpecE.typeSpec ⟨"Old", TypeKind.interfaceType, none⟩]]⟩)]⟩

/-- Witness for C5: on the concrete package, the surviving entry satisfies
the scanner guarantees. -/
theorem scanPackage_spec_witness :
    strEndsWith "svc.go" "_test.go" = false
    ∧ strEndsWith "svc.go" "_trace.go" = false
    ∧ ([⟨"I"⟩] : List InterfaceInfo) ≠ []
    ∧ ("svc.go" : String) ∈ (scanPackage scanWitnessPkg).map (fun fi => fi.fileName) := by
  have h := (scanPackage_spec scanWitnessPkg).2.2.2.2.1
    ⟨"svc.go", [⟨"I"⟩]⟩ (by decide)
  have h4 := (scanPackage_spec scanWitnessPkg).2.2.2.1 "svc.go" (by decide) (by decide)
  have hb : baseName "svc.go" = "svc.go" := by decide
  exact ⟨h.1, h.2.1, h.2.2.1, hb ▸ h4⟩

/-! ## Interface Resolver merge rule (spec §4.2)

The generator engine's resolution code (`mergeMethods`, `processInterface`)
is not under `src/` — only its tests (`Test_mergeMethods` in
`src/cmd_generate.go` lines 1000–1072) and callers are.  The merge rule is
therefore modelled from the spec. -/

/-- `generator.Method`: one resolved method signature.  Only an abstract
payload is needed for the merge claims (the test distinguishes colliding
entries by their `Doc` field). -/
structure Method where
  doc : List String
deriving DecidableEq, Repr

/-- `methodsList` (`map[string]Method`), modelled as an association list
with first-key-wins lookup (keys are unique in a Go map). -/
def MethodsList : Type := List (String × Method)

/-- Go map lookup on the association list. -/
def lookupMethod : List (String × Method) → String → Option Method
  | [], _ => none
  | (k, m) :: rest, n => if k = n then some m else lookupMethod rest n

/-- Modelled from the spec: the engine's `mergeMethods` (missing from
`src/`, specified by §4.2 "later embeds do not overwrite earlier ones on
collision" and exercised by `Test_mergeMethods`: "duplicate methods should
return outer method").  Combines two method sets; on a key collision the
first (outer) argument's entry wins. -/
def mergeMethods (ml1 ml2 : List (String × Method)) : List (String × Method) :=
  ml1 ++ ml2.filter (fun kv => (lookupMethod ml1 kv.1).isNone)

/-- Modelled from the spec: an interface declaration for resolution
purposes — its direct methods and its embedded interfaces in declaration
order (embedding resolved to arbitrary depth, §4.2). -/
inductive IfaceDecl where
  | mk (direct : List (String × Method)) (embeds : List IfaceDecl)

mutual

/-- Modelled from the spec (§4.2 merge rule): resolve an interface by
first combining all embedded sets in declaration order (first embed wins
among peers) and then overlaying direct methods, which always win. -/
def resolveIface : IfaceDecl → List (String × Method)
  | IfaceDecl.mk direct embeds => mergeMethods direct (resolveEmbeds embeds)

/-- Modelled from the spec: combine the resolved sets of a list of peer
embeds in declaration order; earlier embeds win on collision. -/
def resolveEmbeds : List IfaceDecl → List (String × Method)
  | [] => []
  | e :: es => mergeMethods (resolveIface e) (resolveEmbeds es)

end

theorem lookupMethod_append (a b : List (String × Method)) (n : String) :
    lookupMethod (a ++ b) n = (lookupMethod a n).or (lookupMethod b n) := by
  induction a with
  | nil => rfl
  | cons kv rest ih =>
    obtain ⟨k, m⟩ := kv
    by_cases hk : k = n
    · simp [lookupMethod, hk]
    · simp [lookupMethod, hk, ih]

theorem lookupMethod_filter_compl (a : List (String × Method)) (n : String)
    (ha : lookupMethod a n = none) :
    ∀ b : List (String × Method),
      lookupMethod (b.filter (fun kv => (lookupMethod a kv.1).isNone)) n
        = lookupMethod b n := by
  intro b
  induction b with
  | nil => rfl
  | cons kv rest ih =>
    obtain ⟨k, m⟩ := kv
    by_cases hk : k = n
    · subst hk
      simp [List.filter, ha, lookupMethod]
    · by_cases hp : (lookupMethod a k).isNone
      · simp [List.filter, hp, lookupMethod, hk, ih]
      · simp [List.filter, hp, lookupMethod, hk, ih]

theorem lookupMethod_mergeMethods (a b : List (String × Method)) (n : String) :
    lookupMethod (mergeMethods a b) n = (lookupMethod a n).or (lookupMethod b n) := by
  rw [mergeMethods, lookupMethod_append]
  cases ha : lookupMethod a n with
  | some m => simp [Option.or]
  | none => simp [Option.or, lookupMethod_filter_compl a n ha b]

/-- C1: merge precedence.  At every node of the (arbitrarily deep)
embedding tree, a method name resolves to the direct declaration when one
exists, otherwise to the first peer embed (in declaration order) that
provides it — so direct declarations win over anything embedded and the
first embed wins among peers, transitively through multiple levels.  The
final conjunct replays `Test_mergeMethods`' collision case. -/
theorem resolve_merge_precedence :
    (∀ (direct : List (String × Method)) (embeds : List IfaceDecl) (n : String),
      lookupMethod (resolveIface (IfaceDecl.mk direct embeds)) n
        = (lookupMethod direct n).or (lookupMethod (resolveEmbeds embeds) n))
    ∧ (∀ (e : IfaceDecl) (es : List IfaceDecl) (n : String),
      lookupMethod (resolveEmbeds (e :: es)) n
        = (lookupMethod (resolveIface e) n).or (lookupMethod (resolveEmbeds es) n))
    ∧ mergeMethods [("method", ⟨["outer"]⟩)] [("method", ⟨["inner"]⟩)]
        = [("method", ⟨["outer"]⟩)] := by
  refine ⟨?_, ?_, by decide⟩
  · intro direct embeds n
    rw [resolveIface, lookupMethod_mergeMethods]
  · intro e es n
    rw [resolveEmbeds, lookupMethod_mergeMethods]

/-! ## Per-interface config filtering (embedding of `filterInterfaces`,
`src/cmd_generate.go` lines 399–423, and the config types of
`src/config.go`) -/

/-- `InterfaceConfig` from `src/config.go`. -/
structure InterfaceConfigE where
  ignore : Bool
  decoratorName : String
  spanPre : String
deriving DecidableEq, Repr

/-- `PackageConfig` from `src/config.go`: output subdirectory and the
`Interfaces` map (`map[string]*InterfaceConfig`); a `none` value models a
nil pointer entry. -/
structure PackageConfigE where
  output : String
  interfaces : List (String × Option InterfaceConfigE)
deriving DecidableEq, Repr

/-- Go map access `pkgCfg.Interfaces[iface.Name]` with its `explicit`
flag: `none` = key absent, `some v` = key present with value `v`. -/
def lookupIfaceCfg :
    List (String × Option InterfaceConfigE) → String → Option (Option InterfaceConfigE)
  | [], _ => none
  | (k, v) :: rest, n => if k = n then some v else lookupIfaceCfg rest n

/-- The skip test inside `filterInterfaces`: an interface is dropped only
when it is explicitly listed, with a non-nil config, whose `Ignore` is
true (`explicit && ifaceCfg != nil && ifaceCfg.Ignore`). -/
def ifaceRemoved (pkgCfg : PackageConfigE) (n : String) : Bool :=
  match lookupIfaceCfg pkgCfg.interfaces n with
  | some (some ic) => ic.ignore
  | _ => false

/-- The per-file loop of `filterInterfaces`: filter each group's
interfaces, dropping groups that end up empty. -/
def filterFileGroups (pkgCfg : PackageConfigE) : List FileInterfaces → List FileInterfaces
  | [] => []
  | fg :: rest =>
    if fg.interfaces.filter (fun i => !ifaceRemoved pkgCfg i.name) = [] then
      filterFileGroups pkgCfg rest
    else
      ⟨fg.fileName, fg.interfaces.filter (fun i => !ifaceRemoved pkgCfg i.name)⟩
        :: filterFileGroups pkgCfg rest

/-- `filterInterfaces` from `src/cmd_generate.go`: with an empty
`Interfaces` map there is no filtering at all. -/
def filterInterfaces (fileGroups : List FileInterfaces) (pkgCfg : PackageConfigE) :
    List FileInterfaces :=
  if pkgCfg.interfaces = [] then fileGroups
  else filterFileGroups pkgCfg fileGroups

theorem mem_filterFileGroups (pkgCfg : PackageConfigE) :
    ∀ (fgs : List FileInterfaces) (fg' : FileInterfaces),
      fg' ∈ filterFileGroups pkgCfg fgs ↔
        ∃ fg, fg ∈ fgs ∧ fg'.fileName = fg.fileName
          ∧ fg'.interfaces = fg.interfaces.filter (fun i => !ifaceRemoved pkgCfg i.name)
          ∧ fg.interfaces.filter (fun i => !ifaceRemoved pkgCfg i.name) ≠ [] := by
  intro fgs
  induction fgs with
  | nil => intro fg'; simp [filterFileGroups]
  | cons fg rest ih =>
    intro fg'
    by_cases he : fg.interfaces.filter (fun i => !ifaceRemoved pkgCfg i.name) = []
    · rw [filterFileGroups, if_pos he, ih]
      constructor
      · rintro ⟨g, hmem, hrest⟩
        exact ⟨g, List.mem_cons_of_mem _ hmem, hrest⟩
      · rintro ⟨g, hmem, hn, hi, hne⟩
        rcases List.mem_cons.mp hmem with hg | hg
        · subst hg; exact absurd he hne
        · exact ⟨g, hg, hn, hi, hne⟩
    · rw [filterFileGroups, if_neg he]
      constructor
      · intro h
        rcases List.mem_cons.mp h with hfg | hfg
        · subst hfg
          exact ⟨fg, List.mem_cons_self _ _, rfl, rfl, he⟩
        · obtain ⟨g, hmem, hrest⟩ := (ih fg').mp hfg
          exact ⟨g, List.mem_cons_of_mem _ hmem, hrest⟩
      · rintro ⟨g, hmem, hn, hi, hne⟩
        rcases List.mem_cons.mp hmem with hg | hg
        · subst hg
          apply List.mem_cons.mpr
          left
          cases fg'
          simp only [FileInterfaces.mk.injEq]
          exact ⟨hn, hi⟩
        · exact List.mem_cons_of_mem _ ((ih fg').mpr ⟨g, hg, hn, hi, hne⟩)

/-- C10: the interface map of a package config is not an allowlist.
With an empty map nothing is filtered; an interface is removed exactly
when it is explicitly listed with a non-nil config whose ignore flag is
set (so unmentioned interfaces are always generated); the surviving groups
are exactly the original groups with their removed interfaces filtered
out, and a group whose interfaces are all removed is dropped entirely. -/
theorem filterInterfaces_not_allowlist (pkgCfg : PackageConfigE) (fgs : List FileInterfaces) :
    (pkgCfg.interfaces = [] → filterInterfaces fgs pkgCfg = fgs)
    ∧ (∀ n, ifaceRemoved pkgCfg n = true ↔
        ∃ ic, lookupIfaceCfg pkgCfg.interfaces n = some (some ic) ∧ ic.ignore = true)
    ∧ (∀ n, lookupIfaceCfg pkgCfg.interfaces n = none → ifaceRemoved pkgCfg n = false)
    ∧ (pkgCfg.interfaces ≠ [] →
        ∀ fg', fg' ∈ filterInterfaces fgs pkgCfg ↔
          ∃ fg, fg ∈ fgs ∧ fg'.fileName = fg.fileName
            ∧ fg'.interfaces = fg.interfaces.filter (fun i => !ifaceRemoved pkgCfg i.name)
            ∧ fg.interfaces.filter (fun i => !ifaceRemoved pkgCfg i.name) ≠ []) := by
  refine ⟨?_, ?_, ?_, ?_⟩
  · intro h
    rw [filterInterfaces, if_pos h]
  · intro n
    rw [ifaceRemoved]
    cases h : lookupIfaceCfg pkgCfg.interfaces n with
    | none => simp
    | some v =>
      cases v with
      | none => simp
      | some ic => simp
  · intro n h
    rw [ifaceRemoved, h]
  · intro h fg'
    rw [filterInterfaces, if_neg h]
    exact mem_filterFileGroups pkgCfg fgs fg'

/-- Witness for C10: with a config listing only `Ignored` (ignore: true),
the unmentioned interface `Kept` still survives, `Ignored` is removed, and
the group consisting solely of `Ignored` is dropped. -/
theorem filterInterfaces_not_allowlist_witness :
    (⟨"a.go", [⟨"Kept"⟩]⟩ : FileInterfaces) ∈
      filterInterfaces
        [⟨"a.go", [⟨"Kept"⟩, ⟨"Ignored"⟩]⟩, ⟨"b.go", [⟨"Ignored"⟩]⟩]
        ⟨"trace", [("Ignored", some ⟨true, "", ""⟩)]⟩
    ∧ ifaceRemoved ⟨"trace", [("Ignored", some ⟨true, "", ""⟩)]⟩ "Kept" = false := by
  constructor
  · exact ((filterInterfaces_not_allowlist
      ⟨"trace", [("Ignored", some ⟨true, "", ""⟩)]⟩
      [⟨"a.go", [⟨"Kept"⟩, ⟨"Ignored"⟩]⟩, ⟨"b.go", [⟨"Ignored"⟩]⟩]).2.2.2
      (by decide) ⟨"a.go", [⟨"Kept"⟩]⟩).mpr
      ⟨⟨"a.go", [⟨"Kept"⟩, ⟨"Ignored"⟩]⟩, by decide, by decide, by decide, by decide⟩
  · exact (filterInterfaces_not_allowlist
      ⟨"trace", [("Ignored", some ⟨true, "", ""⟩)]⟩ []).2.2.1 "Kept" (by decide)

/-! ## Output write-back (embedding of the tail of `generateFileDecorators`,
`src/cmd_generate.go` lines 495–509) -/

/-- The write-back step of `generateFileDecorators`.  `existing` is the
output file's current (content, mtime) when `os.ReadFile` succeeds, `none`
on a read error; `processed` is the freshly rendered, goimports-normalized
text; `now` is the current time.  When the existing content is
byte-identical the write is skipped and only the mtime is touched
(`os.Chtimes`); otherwise the new bytes are written.  The returned flag
records whether `WriteFile` was invoked. -/
def writeOutputFile (existing : Option (String × Nat)) (processed : String) (now : Nat) :
    (String × Nat) × Bool :=
  match existing with
  | some (c, _) => if c = processed then ((c, now), false) else ((processed, now), true)
  | none => ((processed, now), true)

/-- C6: if the newly rendered bytes equal the existing output's content,
the write is skipped, the content is unchanged and the mtime is refreshed
to now; otherwise the new bytes are written.  Consequently a second run
rendering the same bytes performs no write and leaves the first run's
content untouched (only the mtime moves). -/
theorem writeOutputFile_idempotent
    (existing : Option (String × Nat)) (processed : String) (t0 now t2 : Nat) :
    ((existing = some (processed, t0)) →
      writeOutputFile existing processed now = ((processed, now), false))
    ∧ (∀ c, existing = some (c, t0) → c ≠ processed →
      writeOutputFile existing processed now = ((processed, now), true))
    ∧ (existing = none →
      writeOutputFile existing processed now = ((processed, now), true))
    ∧ (writeOutputFile (some (writeOutputFile existing processed now).1) processed t2
        = (((writeOutputFile existing processed now).1.1, t2), false)
      ∧ (writeOutputFile existing processed now).1.1 = processed) := by
  refine ⟨?_, ?_, ?_, ?_⟩
  · intro h
    subst h
    simp [writeOutputFile]
  · intro c h hne
    subst h
    simp [writeOutputFile, hne]
  · intro h
    subst h
    rfl
  · cases existing with
    | none => simp [writeOutputFile]
    | some e =>
      obtain ⟨c, t⟩ := e
      by_cases hc : c = processed
      · subst hc
        simp [writeOutputFile]
      · simp [writeOutputFile, hc]

/-- Witness for C6: a concrete skip (identical bytes) and a concrete
rewrite (different bytes). -/
theorem writeOutputFile_idempotent_witness :
    writeOutputFile (some ("package x", 3)) "package x" 9 = (("package x", 9), false)
    ∧ writeOutputFile (some ("old", 3)) "package x" 9 = (("package x", 9), true) := by
  constructor
  · exact (writeOutputFile_idempotent (some ("package x", 3)) "package x" 3 9 0).1 rfl
  · exact (writeOutputFile_idempotent (some ("old", 3)) "package x" 3 9 0).2.1 "old" rfl
      (by decide)

/-! ## The Datadog body template (embedding of `datadogTemplate`,
`src/cmd_generate.go` lines 778–813 and
`src/internal/generate/template.go` lines 28–63) -/

/-- One method of a resolved interface as the body template sees it:
`$method.Name`, `$method.AcceptsContext`, `$method.ReturnsError`. -/
structure TMethod where
  name : String
  acceptsContext : Bool
  returnsError : Bool
deriving DecidableEq, Repr

/-- The text block the template emits for one qualifying method: a wrapper
with the same name that starts a span named `<spanNamePrefix>.<method>`,
defers FinishSpan (passing the trailing error when the method returns
one), and forwards the call to the wrapped base value. -/
structure RenderedWrapper where
  methodName : String
  spanName : String
  startsSpan : Bool
  finishPassesError : Bool
  forwardsToBase : Bool
deriving DecidableEq, Repr

/-- The wrapper block emitted inside `{{if $method.AcceptsContext}}`:
`StartSpan(ctx, "<prefix>.<name>")`, deferred `FinishSpan(span, err|nil,
...)`, then `$method.Pass` forwarding to `_d.<Interface>.`. -/
def renderWrapper (spanPre : String) (m : TMethod) : RenderedWrapper :=
  ⟨m.name, spanPre ++ "." ++ m.name, true, m.returnsError, true⟩

/-- The `{{range $method := .Interface.Methods}}{{if $method.AcceptsContext}}`
loop of `datadogTemplate`: wrapper blocks are emitted only for methods
whose first parameter is the recognized context type; nothing at all is
emitted for the others. -/
def renderBodyWrappers (spanPre : String) (methods : List TMethod) : List RenderedWrapper :=
  (methods.filter (fun m => m.acceptsContext)).map (renderWrapper spanPre)

/-- How a call on the generated decorator dispatches.  The decorator
struct embeds the base interface (`{{.Interface.Type}}` field), so by Go
method promotion any interface method without an emitted wrapper goes
straight to the wrapped base value. -/
inductive DispatchKind
  | instrumentedWrapper (w : RenderedWrapper)
  | promotedPassThrough
deriving DecidableEq, Repr

/-- Dispatch on the generated decorator: an emitted wrapper shadows the
promoted method; otherwise the embedded base's method is promoted. -/
def decoratorDispatch (spanPre : String) (methods : List TMethod) (n : String) :
    Option DispatchKind :=
  match (renderBodyWrappers spanPre methods).find? (fun w => w.methodName == n) with
  | some w => some (DispatchKind.instrumentedWrapper w)
  | none =>
    if methods.any (fun m => m.name == n) then some DispatchKind.promotedPassThrough
    else none

theorem renderBodyWrappers_cons (spanPre : String) (x : TMethod) (rest : List TMethod) :
    renderBodyWrappers spanPre (x :: rest)
      = if x.acceptsContext then
          renderWrapper spanPre x :: renderBodyWrappers spanPre rest
        else renderBodyWrappers spanPre rest := by
  by_cases h : x.acceptsContext <;> simp [renderBodyWrappers, List.filter_cons, h]

theorem renderBody_wrapper_source (spanPre : String) (methods : List TMethod)
    (w : RenderedWrapper) (hw : w ∈ renderBodyWrappers spanPre methods) :
    ∃ m', m' ∈ methods ∧ m'.acceptsContext = true ∧ w = renderWrapper spanPre m' := by
  rw [renderBodyWrappers] at hw
  obtain ⟨m', hm', hweq⟩ := List.mem_map.mp hw
  obtain ⟨hmem, hctx⟩ := List.mem_filter.mp hm'
  exact ⟨m', hmem, hctx, hweq.symm⟩

theorem renderBody_find (spanPre : String) :
    ∀ (methods : List TMethod) (m : TMethod),
      (methods.map (fun x => x.name)).Nodup → m ∈ methods → m.acceptsContext = true →
      (renderBodyWrappers spanPre methods).find? (fun w => w.methodName == m.name)
        = some (renderWrapper spanPre m) := by
  intro methods
  induction methods with
  | nil => intro m _ hm _; cases hm
  | cons x rest ih =>
    intro m hnd hm hctx
    have hnd' : (rest.map (fun x => x.name)).Nodup := (List.nodup_cons.mp hnd).2
    have hxnot : x.name ∉ rest.map (fun x => x.name) := (List.nodup_cons.mp hnd).1
    rcases List.mem_cons.mp hm with heq | hm'
    · subst heq
      rw [renderBodyWrappers_cons, if_pos hctx]
      exact List.find?_cons_of_pos _ (by simp [renderWrapper])
    · have hne : x.name ≠ m.name := by
        intro hcontra
        exact hxnot (hcontra ▸ List.mem_map_of_mem (fun x => x.name) hm')
      rw [renderBodyWrappers_cons]
      by_cases hx : x.acceptsContext
      · rw [if_pos hx]
        rw [List.find?_cons_of_neg _ (by simp [renderWrapper, hne])]
        exact ih m hnd' hm' hctx
      · rw [if_neg hx]
        exact ih m hnd' hm' hctx

/-- C3: pass-through invariant.  For a method whose first parameter is not
the recognized context type the template emits no wrapper block at all (in
particular no StartSpan), and the decorator serves the method by promotion
from the embedded base value — a straight pass-through.  A method that
does accept a leading context gets exactly the instrumented wrapper: it
starts a span named `<prefix>.<name>`, finishes it passing the trailing
error exactly when the method returns one, and forwards to the base. -/
theorem template_passthrough_invariant (spanPre : String) (methods : List TMethod)
    (m : TMethod) (hm : m ∈ methods)
    (hnd : (methods.map (fun x => x.name)).Nodup) :
    (m.acceptsContext = false →
      (∀ w ∈ renderBodyWrappers spanPre methods, w.methodName ≠ m.name)
      ∧ decoratorDispatch spanPre methods m.name = some DispatchKind.promotedPassThrough)
    ∧ (m.acceptsContext = true →
      decoratorDispatch spanPre methods m.name
        = some (DispatchKind.instrumentedWrapper (renderWrapper spanPre m))
      ∧ (renderWrapper spanPre m).startsSpan = true
      ∧ (renderWrapper spanPre m).forwardsToBase = true
      ∧ (renderWrapper spanPre m).spanName = spanPre ++ "." ++ m.name
      ∧ (renderWrapper spanPre m).finishPassesError = m.returnsError) := by
  constructor
  · intro hctx
    have hnow : ∀ w ∈ renderBodyWrappers spanPre methods, w.methodName ≠ m.name := by
      intro w hw hcontra
      obtain ⟨m', hmem, hctx', hweq⟩ := renderBody_wrapper_source spanPre methods w hw
      have hname : m'.name = m.name := by rw [hweq] at hcontra; exact hcontra
      have : m' = m := List.inj_on_of_nodup_map hnd hmem hm hname
      rw [this] at hctx'
      rw [hctx'] at hctx
      cases hctx
    refine ⟨hnow, ?_⟩
    rw [decoratorDispatch]
    have hfind : (renderBodyWrappers spanPre methods).find?
        (fun w => w.methodName == m.name) = none := by
      rw [List.find?_eq_none]
      intro w hw
      simpa using hnow w hw
    rw [hfind]
    simp only []
    rw [if_pos (List.any_eq_true.mpr ⟨m, hm, by simp⟩)]
  · intro hctx
    refine ⟨?_, rfl, rfl, rfl, rfl⟩
    rw [decoratorDispatch, renderBody_find spanPre methods m hnd hm hctx]

/-- Witness for C3: a two-method interface where `Close` (no leading
context) is promoted untraced and `Get` (context-leading) is wrapped. -/
theorem template_passthrough_invariant_witness :
    decoratorDispatch "Svc" [⟨"Get", true, true⟩, ⟨"Close", false, true⟩] "Close"
      = some DispatchKind.promotedPassThrough
    ∧ decoratorDispatch "Svc" [⟨"Get", true, true⟩, ⟨"Close", false, true⟩] "Get"
      = some (DispatchKind.instrumentedWrapper ⟨"Get", "Svc.Get", true, true, true⟩) := by
  constructor
  · exact ((template_passthrough_invariant "Svc"
      [⟨"Get", true, true⟩, ⟨"Close", false, true⟩] ⟨"Close", false, true⟩
      (by decide) (by decide)).1 rfl).2
  · exact ((template_passthrough_invariant "Svc"
      [⟨"Get", true, true⟩, ⟨"Close", false, true⟩] ⟨"Get", true, true⟩
      (by decide) (by decide)).2 rfl).1

/-! ## Per-file generation loop (embedding of `generateFileDecorators`,
`src/cmd_generate.go` lines 455–492) -/

/-- The per-interface loop of `generateFileDecorators`: run the engine for
each interface of the file, skipping (`continue`) the ones that fail.
`gen` abstracts `generateInterfaceOutput` (the engine itself is outside
`src/`). -/
def collectSuccesses {α : Type} (gen : α → Except String String) :
    List α → List String
  | [] => []
  | i :: rest =>
    match gen i with
    | Except.error _ => collectSuccesses gen rest
    | Except.ok out => out :: collectSuccesses gen rest

/-- Buffer assembly: the first successful interface contributes
`extractAfterPackage` of its output (imports kept), subsequent ones
`extractBodyOnly`; `a` and `b` abstract those two extractors. -/
def assemblePieces (a b : String → String) : List String → List String
  | [] => []
  | o :: rest => a o :: rest.map b

/-- `generateFileDecorators`' success path: if no interface survived, no
output file is produced and no error is returned (`return nil`); otherwise
the concatenated buffer is run through the formatter (`imports.Process`,
abstracted by `fmt`), whose own failure does propagate. -/
def generateFileDecoratorsE {α : Type} (gen : α → Except String String)
    (fmt : String → Except String String) (header : String)
    (a b : String → String) (ifaces : List α) : Except String (Option String) :=
  if assemblePieces a b (collectSuccesses gen ifaces) = [] then Except.ok none
  else
    (fmt (header ++ String.join
      ((assemblePieces a b (collectSuccesses gen ifaces)).map (fun s => s ++ "\n")))).map some

/-- Whether the engine succeeded on an interface. -/
def genOk {α : Type} (gen : α → Except String String) (i : α) : Bool :=
  match gen i with
  | Except.ok _ => true
  | Except.error _ => false

theorem collectSuccesses_filter {α : Type} (gen : α → Except String String) :
    ∀ ifaces : List α,
      collectSuccesses gen (ifaces.filter (genOk gen)) = collectSuccesses gen ifaces := by
  intro ifaces
  induction ifaces with
  | nil => rfl
  | cons i rest ih =>
    cases hg : gen i with
    | error e => simp [List.filter_cons, genOk, hg, collectSuccesses, ih]
    | ok out => simp [List.filter_cons, genOk, hg, collectSuccesses, ih]

/-- Modelled from the spec: the engine's per-interface outcome (the
resolution/render engine is not under `src/`).  Per §4.4, an interface
with zero qualifying methods (or a failed resolution) yields an error that
the caller swallows; otherwise it renders to text (abstracted here by the
interface name). -/
def genEngine (iface : String × List TMethod) : Except String String :=
  if iface.2.filter (fun m => m.acceptsContext) = [] then Except.error "empty interface"
  else Except.ok iface.1

/-- C7: per-interface failures are swallowed.  Generation of a file is
unchanged if the failing interfaces are removed up front (one bad
interface never blocks its siblings); when every interface fails or is
empty the result is `ok none` — no output file and no error; and in the
two-interface scenario (one with three context-leading methods, one
empty) exactly one decorator is produced with no error. -/
theorem generateFile_skips_failing_interfaces {α : Type}
    (gen : α → Except String String) (fmt : String → Except String String)
    (header : String) (a b : String → String) (ifaces : List α) :
    (generateFileDecoratorsE gen fmt header a b (ifaces.filter (genOk gen))
        = generateFileDecoratorsE gen fmt header a b ifaces)
    ∧ ((∀ i ∈ ifaces, ∃ e, gen i = Except.error e) →
        generateFileDecoratorsE gen fmt header a b ifaces = Except.ok none)
    ∧ generateFileDecoratorsE genEngine Except.ok "H" id id
        [("Svc", [⟨"A", true, false⟩, ⟨"B", true, true⟩, ⟨"C", true, false⟩]),
         ("Empty", [])]
      = Except.ok (some "HSvc\n") := by
  refine ⟨?_, ?_, by rfl⟩
  · rw [generateFileDecoratorsE, generateFileDecoratorsE, collectSuccesses_filter]
  · intro hall
    have hnone : collectSuccesses gen ifaces = [] := by
      induction ifaces with
      | nil => rfl
      | cons i rest ih =>
        obtain ⟨e, he⟩ := hall i (List.mem_cons_self _ _)
        rw [collectSuccesses, he]
        exact ih (fun j hj => hall j (List.mem_cons_of_mem _ hj))
    rw [generateFileDecoratorsE, hnone]
    rfl

/-- Witness for C7: with a single empty interface every generation attempt
fails, so no file is produced and no error surfaces. -/
theorem generateFile_skips_failing_interfaces_witness :
    generateFileDecoratorsE genEngine Except.ok "H" id id [(("Empty", []) : String × List TMethod)]
      = Except.ok none := by
  exact (generateFile_skips_failing_interfaces genEngine Except.ok "H" id id
    [("Empty", [])]).2.1
    (fun i hi => by
      rcases List.mem_singleton.mp hi with rfl
      exact ⟨"empty interface", rfl⟩)

/-! ## Batch load and worker admission (embedding of `LoadAll`,
`src/unnamed/part_007` lines 46–65, and the worker-spawn loop of
`runWithConfig`, `src/cmd_generate.go` lines 294–319) -/

/-- The fields of `packages.Package` consulted by `LoadAll` and the
orchestrator: import path, number of package-level errors, and the counts
of `GoFiles` / `CompiledGoFiles`. -/
structure LoadedPkg where
  pkgPath : String
  errs : Nat
  goFiles : Nat
  compiledGoFiles : Nat
deriving DecidableEq, Repr

/-- Go map lookup (first match wins; `LoadAllE` lists later insertions
first, so this realizes last-insert-wins map semantics). -/
def lookupLoaded : List (String × LoadedPkg) → String → Option LoadedPkg
  | [], _ => none
  | (k, v) :: rest, n => if k = n then some v else lookupLoaded rest n

/-- `LoadAll` from `src/unnamed/part_007`: build the result map from the
loaded packages, silently dropping every package that reports errors
(`len(p.Errors) > 0`). -/
def LoadAllE : List LoadedPkg → List (String × LoadedPkg)
  | [] => []
  | p :: rest =>
    if p.errs = 0 then LoadAllE rest ++ [(p.pkgPath, p)]
    else LoadAllE rest

/-- `config.ResolvedPackage` from `src/config.go`. -/
structure ResolvedPackageE where
  importPath : String
  config : PackageConfigE
deriving DecidableEq, Repr

/-- The two skip tests at the top of the worker-spawn loop in
`runWithConfig`: a package missing from the batch-load map (`!ok`) is
skipped, as is one with no Go files at all. -/
def eligiblePkg (pkgMap : List (String × LoadedPkg)) (rp : ResolvedPackageE) :
    Option LoadedPkg :=
  match lookupLoaded pkgMap rp.importPath with
  | none => none
  | some sp =>
    if sp.goFiles = 0 ∧ sp.compiledGoFiles = 0 then none else some sp

/-- Sequential projection of the worker loop: each eligible package is
processed; every worker runs to completion, the first error (in spawn
order) is kept, and each processed package's outputs are collected. -/
def runBatch (pkgMap : List (String × LoadedPkg))
    (proc : ResolvedPackageE → LoadedPkg → Except String (List String)) :
    List ResolvedPackageE → Option String × List String
  | [] => (none, [])
  | rp :: rest =>
    match eligiblePkg pkgMap rp with
    | none => runBatch pkgMap proc rest
    | some sp =>
      match proc rp sp, runBatch pkgMap proc rest with
      | Except.error err, (_, outs) => (some err, outs)
      | Except.ok o, (e, outs) => (e, o ++ outs)

theorem lookupLoaded_append (a b : List (String × LoadedPkg)) (n : String) :
    lookupLoaded (a ++ b) n = (lookupLoaded a n).or (lookupLoaded b n) := by
  induction a with
  | nil => rfl
  | cons kv rest ih =>
    obtain ⟨k, v⟩ := kv
    by_cases hk : k = n
    · simp [lookupLoaded, hk]
    · simp [lookupLoaded, hk, ih]

/-- C9: a configured package whose batch load reports errors (or which
yields no Go files) is silently omitted.  `LoadAll` only ever maps a path
to an error-free loaded package; if every load result for a path has
errors, the path is absent from the map; an absent path (and a package
with zero Go files) makes the orchestrator skip the package without
spawning a worker, so it contributes neither an error nor any output. -/
theorem loadAll_drops_errored_packages :
    (∀ (pkgs : List LoadedPkg) (k : String) (q : LoadedPkg),
      lookupLoaded (LoadAllE pkgs) k = some q →
        q ∈ pkgs ∧ q.errs = 0 ∧ q.pkgPath = k)
    ∧ (∀ (pkgs : List LoadedPkg) (k : String),
      (∀ p ∈ pkgs, p.pkgPath = k → p.errs ≠ 0) →
        lookupLoaded (LoadAllE pkgs) k = none)
    ∧ (∀ (pkgMap : List (String × LoadedPkg)) (rp : ResolvedPackageE),
      lookupLoaded pkgMap rp.importPath = none → eligiblePkg pkgMap rp = none)
    ∧ (∀ (pkgMap : List (String × LoadedPkg)) (rp : ResolvedPackageE) (sp : LoadedPkg),
      lookupLoaded pkgMap rp.importPath = some sp → sp.goFiles = 0 →
        sp.compiledGoFiles = 0 → eligiblePkg pkgMap rp = none)
    ∧ (∀ (pkgMap : List (String × LoadedPkg))
        (proc : ResolvedPackageE → LoadedPkg → Except String (List String))
        (rp : ResolvedPackageE) (rest : List ResolvedPackageE),
      eligiblePkg pkgMap rp = none →
        runBatch pkgMap proc (rp :: rest) = runBatch pkgMap proc rest) := by
  refine ⟨?_, ?_, ?_, ?_, ?_⟩
  · intro pkgs
    induction pkgs with
    | nil => intro k q h; cases h
    | cons p rest ih =>
      intro k q h
      by_cases hp : p.errs = 0
      · rw [LoadAllE, if_pos hp, lookupLoaded_append] at h
        cases hr : lookupLoaded (LoadAllE rest) k with
        | some q' =>
          rw [hr] at h
          cases h
          obtain ⟨hmem, hrest⟩ := ih k q hr
          exact ⟨List.mem_cons_of_mem _ hmem, hrest⟩
        | none =>
          rw [hr] at h
          simp only [Option.or] at h
          rw [lookupLoaded] at h
          by_cases hk : p.pkgPath = k
          · rw [if_pos hk] at h
            cases h
            exact ⟨List.mem_cons_self _ _, hp, hk⟩
          · rw [if_neg hk] at h
            cases h
      · rw [LoadAllE, if_neg hp] at h
        obtain ⟨hmem, hrest⟩ := ih k q h
        exact ⟨List.mem_cons_of_mem _ hmem, hrest⟩
  · intro pkgs
    induction pkgs with
    | nil => intro k _; rfl
    | cons p rest ih =>
      intro k hall
      have ihr := ih k (fun p' hp' => hall p' (List.mem_cons_of_mem _ hp'))
      by_cases hp : p.errs = 0
      · rw [LoadAllE, if_pos hp, lookupLoaded_append, ihr]
        simp only [Option.or]
        rw [lookupLoaded]
        by_cases hk : p.pkgPath = k
        · exact absurd hp (hall p (List.mem_cons_self _ _) hk)
        · rw [if_neg hk]
          rfl
      · rw [LoadAllE, if_neg hp]
        exact ihr
  · intro pkgMap rp h
    rw [eligiblePkg, h]
  · intro pkgMap rp sp h h1 h2
    rw [eligiblePkg]
    simp only [h]
    rw [if_pos ⟨h1, h2⟩]
  · intro pkgMap proc rp rest h
    rw [runBatch, h]

/-- Witness for C9: a batch whose only load result for `m/bad` reports an
error leaves `m/bad` out of the map, and the orchestrator's run over the
single configured package degenerates to the empty run. -/
theorem loadAll_drops_errored_packages_witness :
    lookupLoaded (LoadAllE [⟨"m/bad", 2, 3, 3⟩]) "m/bad" = none
    ∧ runBatch (LoadAllE [⟨"m/bad", 2, 3, 3⟩])
        (fun _ _ => Except.error "should not run") [⟨"m/bad", ⟨"trace", []⟩⟩]
      = (none, []) := by
  have hnone := loadAll_drops_errored_packages.2.1 [⟨"m/bad", 2, 3, 3⟩] "m/bad"
    (fun p hp _ => by
      rcases List.mem_singleton.mp hp with rfl
      decide)
  refine ⟨hnone, ?_⟩
  have helig := loadAll_drops_errored_packages.2.2.1 (LoadAllE [⟨"m/bad", 2, 3, 3⟩])
    ⟨"m/bad", ⟨"trace", []⟩⟩ hnone
  have := loadAll_drops_errored_packages.2.2.2.2 (LoadAllE [⟨"m/bad", 2, 3, 3⟩])
    (fun _ _ => Except.error "should not run") ⟨"m/bad", ⟨"trace", []⟩⟩ [] helig
  rw [this]
  rfl

/-! ## Pattern expansion and exclude filters (embedding of
`Config.ResolvePackages` and `Config.shouldExclude`, `src/config.go`
lines 112–181) -/

/-- The fields of `Config` (`src/config.go`) used by pattern expansion. -/
structure ConfigE where
  output : String
  exclude : List String
  packages : List (String × Option PackageConfigE)
deriving DecidableEq, Repr

/-- `Config.mergePackageConfig`: apply the global default output
subdirectory when the package config has none. -/
def mergePackageConfig (c : ConfigE) (pkgCfg : PackageConfigE) : PackageConfigE :=
  if pkgCfg.output = "" then ⟨c.output, pkgCfg.interfaces⟩ else pkgCfg

/-- `Config.shouldExclude`: an import path is excluded when, for some
configured entry `seg`, it ends with `"/" + seg` or contains
`"/" + seg + "/"`. -/
def shouldExclude (c : ConfigE) (importPath : String) : Bool :=
  c.exclude.any (fun seg =>
    strEndsWith importPath ("/" ++ seg) || strContains importPath ("/" ++ seg ++ "/"))

/-- The automatic output-directory test inside `ResolvePackages`: with
`outputSuffix := "/" + merged.Output`, a path is dropped when it ends with
the suffix or contains `outputSuffix + "/"`. -/
def insideOutputDir (outputSeg : String) (p : String) : Bool :=
  strEndsWith p ("/" ++ outputSeg) || strContains p ("/" ++ outputSeg ++ "/")

/-- The filter applied to each path of a recursive pattern's expansion. -/
def keepExpanded (c : ConfigE) (merged : PackageConfigE) (p : String) : Bool :=
  !insideOutputDir merged.output p && !shouldExclude c p

/-- The per-pattern body of `ResolvePackages`: a pattern ending in `/...`
is expanded via `go list` (abstracted by `goList`) and filtered; any other
pattern is taken verbatim. -/
def resolveOnePattern (c : ConfigE) (goList : String → List String)
    (pattern : String) (pkgCfg : Option PackageConfigE) : List ResolvedPackageE :=
  if strEndsWith pattern "/..." then
    ((goList pattern).filter
        (keepExpanded c (mergePackageConfig c (pkgCfg.getD ⟨"", []⟩)))).map
      (fun p => ⟨p, mergePackageConfig c (pkgCfg.getD ⟨"", []⟩)⟩)
  else
    [⟨pattern, mergePackageConfig c (pkgCfg.getD ⟨"", []⟩)⟩]

/-- `Config.ResolvePackages` (error cases aside): concatenate the
expansions of all configured patterns. -/
def resolvePackages (c : ConfigE) (goList : String → List String) :
    List ResolvedPackageE :=
  c.packages.flatMap (fun kv => resolveOnePattern c goList kv.1 kv.2)

/-- The complete path segments of an import path (split on `/`). -/
def splitSegAux : List Char → List Char → List String
  | [], acc => [String.mk acc.reverse]
  | ch :: cs, acc =>
    if ch == '/' then String.mk acc.reverse :: splitSegAux cs []
    else splitSegAux cs (ch :: acc)

/-- All `/`-separated segments of a path. -/
def pathSegments (s : String) : List String :=
  splitSegAux s.toList []

/-- Counterexample for C8: `"mock"` is an exact path segment of
`"mock/sub"` (its leading segment), yet `shouldExclude` does not match it
— the suffix/infix tests only see segments preceded by a slash — so the
expansion of the recursive pattern still contains `mock/sub`. -/
theorem shouldExclude_leading_segment_counterexample :
    ("mock" ∈ pathSegments "mock/sub")
    ∧ shouldExclude ⟨"trace", ["mock"], [("x/...", none)]⟩ "mock/sub" = false
    ∧ (resolvePackages ⟨"trace", ["mock"], [("x/...", none)]⟩
        (fun pat => if pat = "x/..." then ["mock/sub"] else [])).map
        (fun rp => rp.importPath) = ["mock/sub"] := by
  refine ⟨by decide, by decide, by decide⟩

/-- C8 (amended): for recursive patterns, a path is kept iff it is in the
`go list` expansion, does not end with `"/" + output` nor contain
`"/" + output + "/"` (automatic output-subtree exclusion, no explicit
entry needed), and no exclude entry matches it the same way — i.e.
exclude entries match exact path segments in non-leading position only;
non-recursive patterns are taken verbatim.  The concrete conjuncts replay
the documented matching examples: `mock` excludes `app/service/mock` and
`app/service/mock/sub` but neither the prefix-extended `app/mockservice`
nor the leading-segment path `mock/sub`, and the output subtree is
dropped automatically. -/
theorem resolvePackages_exclusion (c : ConfigE) (goList : String → List String)
    (rp : ResolvedPackageE) :
    (rp ∈ resolvePackages c goList ↔
      ∃ kv, kv ∈ c.packages
        ∧ rp.config = mergePackageConfig c (kv.2.getD ⟨"", []⟩)
        ∧ ((strEndsWith kv.1 "/..." = true
            ∧ rp.importPath ∈ goList kv.1
            ∧ insideOutputDir rp.config.output rp.importPath = false
            ∧ shouldExclude c rp.importPath = false)
          ∨ (strEndsWith kv.1 "/..." = false ∧ rp.importPath = kv.1)))
    ∧ shouldExclude ⟨"trace", ["mock"], []⟩ "app/service/mock" = true
    ∧ shouldExclude ⟨"trace", ["mock"], []⟩ "app/service/mock/sub" = true
    ∧ shouldExclude ⟨"trace", ["mock"], []⟩ "app/mockservice" = false
    ∧ shouldExclude ⟨"trace", ["mock"], []⟩ "mock/sub" = false
    ∧ (resolvePackages ⟨"trace", [], [("m/...", none)]⟩
        (fun pat => if pat = "m/..." then ["m/a", "m/a/trace", "m/a/trace/sub"] else [])).map
        (fun x => x.importPath) = ["m/a"] := by
  refine ⟨?_, by decide, by decide, by decide, by decide, by decide⟩
  rw [resolvePackages, List.mem_flatMap]
  constructor
  · rintro ⟨kv, hkv, hin⟩
    rw [resolveOnePattern] at hin
    by_cases hrec : strEndsWith kv.1 "/..." = true
    · rw [if_pos hrec] at hin
      obtain ⟨p, hp, hrp⟩ := List.mem_map.mp hin
      obtain ⟨hpmem, hkeep⟩ := List.mem_filter.mp hp
      rw [keepExpanded] at hkeep
      obtain ⟨hout, hexc⟩ := Bool.and_eq_true_iff.mp hkeep
      refine ⟨kv, hkv, ?_, Or.inl ⟨hrec, ?_, ?_, ?_⟩⟩
      · rw [← hrp]
      · rw [← hrp]; exact hpmem
      · rw [← hrp]
        simpa using hout
      · rw [← hrp]
        simpa using hexc
    · rw [if_neg hrec] at hin
      rcases List.mem_singleton.mp hin with rfl
      exact ⟨kv, hkv, rfl, Or.inr ⟨Bool.eq_false_iff.mpr hrec, rfl⟩⟩
  · rintro ⟨kv, hkv, hcfg, hin | hin⟩
    · obtain ⟨hrec, hmem, hout, hexc⟩ := hin
      refine ⟨kv, hkv, ?_⟩
      rw [resolveOnePattern, if_pos hrec]
      apply List.mem_map.mpr
      refine ⟨rp.importPath, ?_, ?_⟩
      · apply List.mem_filter.mpr
        refine ⟨hmem, ?_⟩
        rw [keepExpanded, ← hcfg]
        simp [hout, hexc]
      · cases rp
        simp only at hcfg
        rw [hcfg]
    · obtain ⟨hrec, hpat⟩ := hin
      refine ⟨kv, hkv, ?_⟩
      rw [resolveOnePattern, if_neg (by simp [hrec])]
      apply List.mem_singleton.mpr
      cases rp
      simp only at hcfg hpat
      rw [hcfg, hpat]

/-- Witness for C8: applying the characterization to a concrete config
shows the package inside the output subtree is dropped from the expansion
with no explicit exclude entry. -/
theorem resolvePackages_exclusion_witness :
    (⟨"m/a/trace", ⟨"trace", []⟩⟩ : ResolvedPackageE) ∉
      resolvePackages ⟨"trace", [], [("m/...", none)]⟩
        (fun pat => if pat = "m/..." then ["m/a", "m/a/trace"] else []) := by
  intro hmem
  have h := (resolvePackages_exclusion ⟨"trace", [], [("m/...", none)]⟩
    (fun pat => if pat = "m/..." then ["m/a", "m/a/trace"] else [])
    ⟨"m/a/trace", ⟨"trace", []⟩⟩).1.mp hmem
  obtain ⟨kv, hkv, hcfg, hcase | hcase⟩ := h
  · rcases List.mem_singleton.mp hkv with rfl
    obtain ⟨_, _, hout, _⟩ := hcase
    revert hout
    decide
  · rcases List.mem_singleton.mp hkv with rfl
    obtain ⟨hrec, _⟩ := hcase
    revert hrec
    decide

/-! ## Incremental regeneration (embedding of the staleness filter in
`runWithConfig`, `src/cmd_generate.go` lines 193–247, with its helpers
`newestTraceModTime`, `sourceNewerThan`, `fileModTime`, lines 676–730).
Times are naturals; `0` models Go's zero `time.Time`, and `t.After(u)`
is `u < t`. -/

/-- One directory entry as `os.ReadDir` reports it. -/
structure DirEntry where
  name : String
  isDir : Bool
  mtime : Nat
deriving DecidableEq, Repr

/-- `newestTraceModTime`: newest mtime among non-directory `*_trace.go`
entries; the zero time when the directory cannot be read (`none`) or no
entry matches. -/
def newestTraceModTime : Option (List DirEntry) → Nat
  | none => 0
  | some entries =>
    entries.foldl
      (fun newest e =>
        if e.isDir || !strEndsWith e.name "_trace.go" then newest
        else if newest < e.mtime then e.mtime else newest)
      0

/-- `sourceNewerThan`: some non-directory, non-test `.go` entry has mtime
strictly after the threshold; an unreadable directory counts as changed. -/
def sourceNewerThan : Option (List DirEntry) → Nat → Bool
  | none, _ => true
  | some entries, threshold =>
    entries.any (fun e =>
      !e.isDir && strEndsWith e.name ".go" && !strEndsWith e.name "_test.go"
        && decide (threshold < e.mtime))

/-- One candidate package of the incremental filter.  `inModule` is
whether `importPathToDir` produced a directory (`srcDir != ""`);
`srcEntries` / `outEntries` are the contents of the source directory and
of its configured output directory. -/
structure CandPkg where
  importPath : String
  inModule : Bool
  srcEntries : Option (List DirEntry)
  outEntries : Option (List DirEntry)
deriving DecidableEq, Repr

/-- The `lastRunTime` loop of `runWithConfig`: the newest `_trace.go`
mtime across all in-module candidates (packages outside the module are
skipped). -/
def lastRunTime : List CandPkg → Nat
  | [] => 0
  | rp :: rest =>
    if !rp.inModule then lastRunTime rest
    else if lastRunTime rest < newestTraceModTime rp.outEntries then
      newestTraceModTime rp.outEntries
    else lastRunTime rest

/-- The per-candidate inclusion test of the incremental filter: an
out-of-module package is always processed; a package with existing output
is regenerated when its source or the config is newer than that output;
a package with no output is regenerated only when there was no previous
run at all, or its source or the config changed since the last run. -/
def includePkg (configTime lastRun : Nat) (rp : CandPkg) : Bool :=
  if !rp.inModule then true
  else if newestTraceModTime rp.outEntries ≠ 0 then
    sourceNewerThan rp.srcEntries (newestTraceModTime rp.outEntries)
      || decide (newestTraceModTime rp.outEntries < configTime)
  else
    decide (lastRun = 0) || sourceNewerThan rp.srcEntries lastRun
      || decide (lastRun < configTime)

/-- The whole incremental filter (`toProcess = filtered`). -/
def filterCandidates (configTime : Nat) (resolved : List CandPkg) : List CandPkg :=
  resolved.filter (includePkg configTime (lastRunTime resolved))

theorem newestTrace_le_lastRunTime :
    ∀ (resolved : List CandPkg) (rp : CandPkg), rp ∈ resolved → rp.inModule = true →
      newestTraceModTime rp.outEntries ≤ lastRunTime resolved := by
  intro resolved
  induction resolved with
  | nil => intro rp h; cases h
  | cons q rest ih =>
    intro rp hmem hin
    rcases List.mem_cons.mp hmem with rfl | hmem'
    · rw [lastRunTime, hin]
      simp only [Bool.not_true]
      by_cases hlt : lastRunTime rest < newestTraceModTime rp.outEntries
      · rw [if_neg (by simp), if_pos hlt]
      · rw [if_neg (by simp), if_neg hlt]
        omega
    · have hrest := ih rp hmem' hin
      rw [lastRunTime]
      by_cases hq : q.inModule
      · simp only [hq, Bool.not_true, if_neg]
        by_cases hlt : lastRunTime rest < newestTraceModTime q.outEntries
        · rw [if_neg (by simp), if_pos hlt]
          omega
        · rw [if_neg (by simp), if_neg hlt]
          exact hrest
      · simp only [Bool.not_eq_true] at hq
        rw [hq]
        exact hrest

/-- Counterexample for C2: a candidate with no prior generated output is
NOT always included.  With `m/a` holding a trace file at time 10 (so the
global last-run time is 10), the never-generated package `m/b` (source at
time 5) is dropped when the config time is 3, although the claim requires
every package with no prior output to be in the regeneration set. -/
theorem incremental_no_output_counterexample :
    newestTraceModTime (CandPkg.mk "m/b" true (some [⟨"b.go", false, 5⟩]) none).outEntries = 0
    ∧ (CandPkg.mk "m/b" true (some [⟨"b.go", false, 5⟩]) none) ∉
        filterCandidates 3
          [⟨"m/a", true, some [], some [⟨"a_trace.go", false, 10⟩]⟩,
           ⟨"m/b", true, some [⟨"b.go", false, 5⟩], none⟩] := by
  refine ⟨by decide, by decide⟩

/-- C2 (amended): in an incremental run, an in-module candidate with
existing generated output is included iff some non-test source file or the
config file is newer than its newest output; a candidate with NO existing
output is included iff there was no previous run anywhere (the newest
trace mtime across all candidates is the zero time) or its source or the
config changed since that global last-run time; out-of-module candidates
are always included.  In particular, when only the config's timestamp
changed (it is newer than the newest existing output), every configured
package is included. -/
theorem incremental_filter_spec (ct : Nat) (resolved : List CandPkg) (rp : CandPkg)
    (hmem : rp ∈ resolved) :
    (rp.inModule = true → newestTraceModTime rp.outEntries ≠ 0 →
      (rp ∈ filterCandidates ct resolved ↔
        sourceNewerThan rp.srcEntries (newestTraceModTime rp.outEntries) = true
        ∨ newestTraceModTime rp.outEntries < ct))
    ∧ (rp.inModule = true → newestTraceModTime rp.outEntries = 0 →
      (rp ∈ filterCandidates ct resolved ↔
        lastRunTime resolved = 0
        ∨ sourceNewerThan rp.srcEntries (lastRunTime resolved) = true
        ∨ lastRunTime resolved < ct))
    ∧ (rp.inModule = false → rp ∈ filterCandidates ct resolved)
    ∧ (lastRunTime resolved < ct → filterCandidates ct resolved = resolved) := by
  refine ⟨?_, ?_, ?_, ?_⟩
  · intro hin hne
    rw [filterCandidates, List.mem_filter]
    rw [includePkg, hin]
    simp only [Bool.not_true, if_neg (by simp : ¬ (false = true)), if_pos hne]
    constructor
    · rintro ⟨_, hp⟩
      rcases Bool.or_eq_true_iff.mp hp with h | h
      · exact Or.inl h
      · exact Or.inr (of_decide_eq_true h)
    · intro h
      refine ⟨hmem, ?_⟩
      rcases h with h | h
      · simp [h]
      · simp [h]
  · intro hin hzero
    rw [filterCandidates, List.mem_filter]
    rw [includePkg, hin]
    simp only [Bool.not_true, if_neg (by simp : ¬ (false = true)), hzero,
      if_neg (by simp : ¬ ((0 : Nat) ≠ 0))]
    constructor
    · rintro ⟨_, hp⟩
      rcases Bool.or_eq_true_iff.mp hp with h | h
      · rcases Bool.or_eq_true_iff.mp h with h' | h'
        · exact Or.inl (of_decide_eq_true h')
        · exact Or.inr (Or.inl h')
      · exact Or.inr (Or.inr (of_decide_eq_true h))
    · intro h
      refine ⟨hmem, ?_⟩
      rcases h with h | h | h
      · simp [h]
      · simp [h]
      · simp [h]
  · intro hin
    rw [filterCandidates, List.mem_filter]
    refine ⟨hmem, ?_⟩
    rw [includePkg, hin]
    rfl
  · intro hct
    rw [filterCandidates]
    apply List.filter_eq_self.mpr
    intro q hq
    rw [includePkg]
    by_cases hqin : q.inModule
    · rw [hqin]
      simp only [Bool.not_true, if_neg (by simp : ¬ (false = true))]
      by_cases hne : newestTraceModTime q.outEntries ≠ 0
      · rw [if_pos hne]
        have hle := newestTrace_le_lastRunTime resolved q hq hqin
        have : newestTraceModTime q.outEntries < ct := by omega
        simp [this]
      · rw [if_neg hne]
        simp [hct]
    · simp only [Bool.not_eq_true] at hqin
      rw [hqin]
      rfl

/-- Witness for C2 (amended): with a fresh config (time 20 beats the
newest output at 10), both the generated and the never-generated package
are included — the "only the config changed" scenario. -/
theorem incremental_filter_spec_witness :
    filterCandidates 20
      [⟨"m/a", true, some [], some [⟨"a_trace.go", false, 10⟩]⟩,
       ⟨"m/b", true, some [⟨"b.go", false, 5⟩], none⟩]
    = [⟨"m/a", true, some [], some [⟨"a_trace.go", false, 10⟩]⟩,
       ⟨"m/b", true, some [⟨"b.go", false, 5⟩], none⟩] := by
  exact (incremental_filter_spec 20
    [⟨"m/a", true, some [], some [⟨"a_trace.go", false, 10⟩]⟩,
     ⟨"m/b", true, some [⟨"b.go", false, 5⟩], none⟩]
    ⟨"m/a", true, some [], some [⟨"a_trace.go", false, 10⟩]⟩
    (by decide)).2.2.2 (by decide)

/-! ## Package Cache (embedding of `PackageCache.load` / `PackageCache.Seed`,
`src/unnamed/part_004` lines 30–55).

`load(path)` consists of three separate critical sections: the RLock'd map
check, the **unlocked** `scanner.Load` call, and the Lock'd map write —
there is no second check under the write lock.  The model fixes one import
path and runs two goroutines through those atomic regions under an
explicit scheduler; `scanner.Load` is deterministic for a fixed path and
returns `pkgVal`. -/

/-- Program counter of one goroutine running `PackageCache.load` for the
fixed path. -/
inductive ThreadPC
  | start
  | willLoad
  | willWrite (v : Nat)
  | done (v : Nat)
deriving DecidableEq, Repr

/-- Shared state for the path: the cache entry (`c.loaded[path]`) and the
number of underlying `scanner.Load` calls performed so far. -/
structure CacheState where
  cached : Option Nat
  loads : Nat
deriving DecidableEq, Repr

/-- One atomic step of `PackageCache.load`: the RLock'd hit check (return
the cached package, or fall through), the unlocked `scanner.Load` call
(counted), and the Lock'd write (last writer wins). -/
def stepLoad (pkgVal : Nat) (s : CacheState) (pc : ThreadPC) : CacheState × ThreadPC :=
  match pc with
  | ThreadPC.start =>
    match s.cached with
    | some p => (s, ThreadPC.done p)
    | none => (s, ThreadPC.willLoad)
  | ThreadPC.willLoad => (⟨s.cached, s.loads + 1⟩, ThreadPC.willWrite pkgVal)
  | ThreadPC.willWrite v => (⟨some v, s.loads⟩, ThreadPC.done v)
  | ThreadPC.done v => (s, ThreadPC.done v)

/-- Two concurrent worker goroutines calling `load` for the same path. -/
structure SysState where
  cache : CacheState
  t0 : ThreadPC
  t1 : ThreadPC
deriving DecidableEq, Repr

/-- One scheduler decision: `false` steps thread 0, `true` steps thread 1. -/
def sysStep (pkgVal : Nat) (s : SysState) (which : Bool) : SysState :=
  if which then
    ⟨(stepLoad pkgVal s.cache s.t1).1, s.t0, (stepLoad pkgVal s.cache s.t1).2⟩
  else
    ⟨(stepLoad pkgVal s.cache s.t0).1, (stepLoad pkgVal s.cache s.t0).2, s.t1⟩

/-- Run the two threads under an explicit interleaving. -/
def runSched (pkgVal : Nat) (s : SysState) : List Bool → SysState
  | [] => s
  | w :: rest => runSched pkgVal (sysStep pkgVal s w) rest

/-- The cache after `Seed` placed an already-loaded package for the path:
both callers are about to start, no underlying load has happened. -/
def seedState (p : Nat) : SysState :=
  ⟨⟨some p, 0⟩, ThreadPC.start, ThreadPC.start⟩

/-- An empty cache with both callers about to start. -/
def freshState : SysState :=
  ⟨⟨none, 0⟩, ThreadPC.start, ThreadPC.start⟩

/-- Counterexample for C4: under the interleaving where both callers pass
the RLock'd check before either writes, the underlying load runs TWICE
for the same path (both callers still return the loaded package), so
`load` does not guarantee at most one underlying load under concurrency. -/
theorem packageCache_duplicate_load_counterexample :
    (runSched 7 freshState [false, true, false, false, true, true]).cache.loads = 2
    ∧ (runSched 7 freshState [false, true, false, false, true, true]).t0 = ThreadPC.done 7
    ∧ (runSched 7 freshState [false, true, false, false, true, true]).t1 = ThreadPC.done 7 := by
  refine ⟨by decide, by decide, by decide⟩

theorem seeded_no_load (v p : Nat) :
    ∀ (sched : List Bool) (s : SysState),
      s.cache.cached = some p → s.cache.loads = 0 →
      (s.t0 = ThreadPC.start ∨ s.t0 = ThreadPC.done p) →
      (s.t1 = ThreadPC.start ∨ s.t1 = ThreadPC.done p) →
      ((runSched v s sched).cache.cached = some p
        ∧ (runSched v s sched).cache.loads = 0
        ∧ ((runSched v s sched).t0 = ThreadPC.start
            ∨ (runSched v s sched).t0 = ThreadPC.done p)
        ∧ ((runSched v s sched).t1 = ThreadPC.start
            ∨ (runSched v s sched).t1 = ThreadPC.done p)) := by
  intro sched
  induction sched with
  | nil =>
    intro s h1 h2 h3 h4
    exact ⟨h1, h2, h3, h4⟩
  | cons w rest ih =>
    intro s h1 h2 h3 h4
    rw [runSched]
    obtain ⟨⟨c, l⟩, t0, t1⟩ := s
    simp only at h1 h2 h3 h4
    subst h1
    subst h2
    cases w with
    | false =>
      rcases h3 with h3 | h3 <;> subst h3 <;>
        exact ih _ (by simp [sysStep, stepLoad]) (by simp [sysStep, stepLoad])
          (by simp [sysStep, stepLoad]) (by simpa [sysStep, stepLoad] using h4)
    | true =>
      rcases h4 with h4 | h4 <;> subst h4 <;>
        exact ih _ (by simp [sysStep, stepLoad]) (by simp [sysStep, stepLoad])
          (by simpa [sysStep, stepLoad] using h3) (by simp [sysStep, stepLoad])
/-- C4 (amended): the cache never reloads an entry that is already
present.  Under every interleaving, two callers hitting a seeded entry
(`Seed` pre-populated the path) perform zero underlying loads and can only
end up returning the seeded package; and from any state where the path is
cached, a caller's very first step returns the cached package without
loading.  (At-most-one-load under concurrency does NOT hold — see the
counterexample — because the check, the load and the write are separate
critical sections with no re-check.) -/
theorem packageCache_cached_never_reloaded (v p : Nat) (sched : List Bool) :
    ((runSched v (seedState p) sched).cache.cached = some p
      ∧ (runSched v (seedState p) sched).cache.loads = 0
      ∧ ((runSched v (seedState p) sched).t0 = ThreadPC.start
          ∨ (runSched v (seedState p) sched).t0 = ThreadPC.done p)
      ∧ ((runSched v (seedState p) sched).t1 = ThreadPC.start
          ∨ (runSched v (seedState p) sched).t1 = ThreadPC.done p))
    ∧ (∀ s : CacheState, s.cached = some p →
        stepLoad v s ThreadPC.start = (s, ThreadPC.done p)) := by
  constructor
  · exact seeded_no_load v p sched (seedState p) rfl rfl (Or.inl rfl) (Or.inl rfl)
  · intro s hs
    rw [stepLoad, hs]

/-- Witness for C4 (amended): a concrete schedule over a seeded cache
performs no load, and a caller stepping on a populated cache gets the
cached package back. -/
theorem packageCache_cached_never_reloaded_witness :
    (runSched 7 (seedState 5) [false, true, false, true]).cache.loads = 0
    ∧ stepLoad 7 ⟨some 5, 0⟩ ThreadPC.start = (⟨some 5, 0⟩, ThreadPC.done 5) := by
  constructor
  · exact (packageCache_cached_never_reloaded 7 5 [false, true, false, true]).1.2.1
  · exact (packageCache_cached_never_reloaded 7 5 []).2 ⟨some 5, 0⟩ rfl

end DDTrace
